import Mathlib

/-!
Verification of the orchetrust certificate-inventory core.

This file gives a shallow embedding, in Lean 4, of the pure content of:
  * `orchetrust/storage/db.py`   (class `Inventory`: `upsert_many`, `list`, `purge`),
  * `orchetrust/util/timebox.py` (`iso_to_days_left`),
  * `orchetrust/cli.py`          (`alerts_run`: days-left defaulting, sorting,
                                  Slack message composition with truncation),
  * `orchetrust/discovery/filesystem.py` (`_iter_candidate_files`, `_load_cert`,
                                  `scan_filesystem`),
and proves functional and invariant properties about the embedding.

Modelling conventions:
  * The SQLite table is a `List InvRow` in rowid (insertion) order.  SQL
    `UPDATE ... WHERE` is a map over matching rows; `INSERT` appends.
    `ORDER BY not_after ASC` sorts with SQLite semantics: NULL first, then
    text in byte order.
  * Wall-clock instants are integers (seconds for expiry arithmetic; for the
    store's own `first_seen`/`last_seen` bookkeeping an abstract `Nat` tick).
  * `datetime.fromisoformat` is an external library routine; it enters as an
    explicit parameter `parse : String → Option Int` (seconds since epoch,
    `none` on parse failure).  Python's `(exp - now).total_seconds() // 86400`
    is floor division, i.e. `Int.fdiv`.
  * Python string truthiness (`if source:` treats both `None` and `""` as
    absent) is `pyStrOpt`.
  * X.509 decoding (`cryptography` library) enters as parameters
    `pemParse derParse : List Nat → Option Cert` over raw file bytes.
-/

/-! ## String comparison (Python / SQLite lexicographic order on code points) -/

def charListLt : List Char → List Char → Bool
  | [], [] => false
  | [], _ :: _ => true
  | _ :: _, [] => false
  | a :: as, b :: bs => if a < b then true else if a = b then charListLt as bs else false

def strLt (s t : String) : Bool := charListLt s.data t.data

def strLe (s t : String) : Bool := strLt s t || s == t

theorem charListLt_trichot : ∀ a b : List Char,
    charListLt a b = true ∨ a = b ∨ charListLt b a = true := by
  intro a
  induction a with
  | nil => intro b; cases b <;> simp [charListLt]
  | cons x xs ih =>
    intro b
    cases b with
    | nil => simp [charListLt]
    | cons y ys =>
      rcases lt_trichotomy x y with h | h | h
      · left; simp [charListLt, h]
      · subst h
        rcases ih ys with h2 | h2 | h2
        · left; simp [charListLt, h2]
        · right; left; simp [h2]
        · right; right; simp [charListLt, h2]
      · right; right; simp [charListLt, h, not_lt.mpr (le_of_lt h), ne_of_gt h]

theorem charListLt_trans : ∀ a b c : List Char,
    charListLt a b = true → charListLt b c = true → charListLt a c = true := by
  intro a
  induction a with
  | nil =>
    intro b c hab hbc
    cases c with
    | nil => cases b <;> simp_all [charListLt]
    | cons _ _ => simp [charListLt]
  | cons x xs ih =>
    intro b c hab hbc
    cases b with
    | nil => simp [charListLt] at hab
    | cons y ys =>
      cases c with
      | nil => simp [charListLt] at hbc
      | cons z zs =>
        simp only [charListLt] at hab hbc ⊢
        by_cases hxy : x < y
        · by_cases hyz : y < z
          · simp [lt_trans hxy hyz]
          · simp [hxy] at hab
            by_cases hyz2 : y = z
            · subst hyz2; simp [hxy]
            · simp [hyz, hyz2] at hbc
        · by_cases hxy2 : x = y
          · subst hxy2
            by_cases hyz : x < z
            · simp [hyz]
            · by_cases hyz2 : x = z
              · subst hyz2
                simp [hxy] at hab hbc ⊢
                exact ih _ _ hab hbc
              · simp [hyz, hyz2] at hbc
          · simp [hxy, hxy2] at hab

theorem strLe_total (s t : String) : strLe s t = true ∨ strLe t s = true := by
  rcases charListLt_trichot s.data t.data with h | h | h
  · left; simp [strLe, strLt, h]
  · left
    have : s = t := by cases s; cases t; exact congrArg String.mk (by simpa using h)
    simp [strLe, this]
  · right; simp [strLe, strLt, h]

theorem strLe_trans {s t u : String}
    (h1 : strLe s t = true) (h2 : strLe t u = true) : strLe s u = true := by
  simp only [strLe, Bool.or_eq_true, beq_iff_eq] at h1 h2 ⊢
  rcases h1 with h1 | h1
  · rcases h2 with h2 | h2
    · exact Or.inl (charListLt_trans _ _ _ h1 h2)
    · subst h2; exact Or.inl h1
  · subst h1; exact h2

/-! ## A stable insertion sort (model of Python `list.sort(key=...)` and of
SQLite `ORDER BY`): an element inserted later goes after equal keys. -/

def insertLeBy {α : Type} (le : α → α → Bool) (x : α) : List α → List α
  | [] => [x]
  | y :: ys => if le y x then y :: insertLeBy le x ys else x :: y :: ys

def stableSortBy {α : Type} (le : α → α → Bool) (l : List α) : List α :=
  l.foldl (fun acc x => insertLeBy le x acc) []

theorem insertLeBy_perm {α : Type} (le : α → α → Bool) (x : α) :
    ∀ l : List α, (insertLeBy le x l).Perm (x :: l) := by
  intro l
  induction l with
  | nil => simp [insertLeBy]
  | cons y ys ih =>
    simp only [insertLeBy]
    by_cases h : le y x = true
    · simp only [h, if_true]
      exact ((ih.cons y).trans (List.Perm.swap x y ys))
    · simp [h]

theorem stableSortBy_aux_perm {α : Type} (le : α → α → Bool) :
    ∀ (l acc : List α), (l.foldl (fun acc x => insertLeBy le x acc) acc).Perm (acc ++ l) := by
  intro l
  induction l with
  | nil => intro acc; simp
  | cons x xs ih =>
    intro acc
    simp only [List.foldl_cons]
    have h1 := ih (insertLeBy le x acc)
    have h2 : (insertLeBy le x acc ++ xs).Perm (acc ++ x :: xs) := by
      have := (insertLeBy_perm le x acc).append_right xs
      exact this.trans List.perm_middle.symm
    exact h1.trans h2

theorem stableSortBy_perm {α : Type} (le : α → α → Bool) (l : List α) :
    (stableSortBy le l).Perm l := by
  simpa using stableSortBy_aux_perm le l []

theorem mem_stableSortBy {α : Type} (le : α → α → Bool) (l : List α) (a : α) :
    a ∈ stableSortBy le l ↔ a ∈ l := (stableSortBy_perm le l).mem_iff

theorem length_stableSortBy {α : Type} (le : α → α → Bool) (l : List α) :
    (stableSortBy le l).length = l.length := (stableSortBy_perm le l).length_eq

def SortedLe {α : Type} (le : α → α → Bool) (l : List α) : Prop :=
  l.Pairwise (fun a b => le a b = true)

theorem mem_insertLeBy {α : Type} (le : α → α → Bool) (x : α) (l : List α) (a : α) :
    a ∈ insertLeBy le x l ↔ a = x ∨ a ∈ l := by
  rw [(insertLeBy_perm le x l).mem_iff]; simp

theorem insertLeBy_sorted {α : Type} (le : α → α → Bool)
    (htot : ∀ a b, le a b = true ∨ le b a = true)
    (htrans : ∀ a b c, le a b = true → le b c = true → le a c = true)
    (x : α) : ∀ l : List α, SortedLe le l → SortedLe le (insertLeBy le x l) := by
  intro l
  induction l with
  | nil => intro _; simp [insertLeBy, SortedLe]
  | cons y ys ih =>
    intro hs
    rw [SortedLe, List.pairwise_cons] at hs
    obtain ⟨hy, hys⟩ := hs
    simp only [insertLeBy]
    by_cases h : le y x = true
    · simp only [h, if_true, SortedLe, List.pairwise_cons]
      refine ⟨?_, ih hys⟩
      intro a ha
      rcases (mem_insertLeBy le x ys a).mp ha with rfl | ha2
      · exact h
      · exact hy a ha2
    · have hfalse : le y x = false := by simpa using h
      simp only [SortedLe]
      rw [if_neg (by simp [hfalse])]
      rw [List.pairwise_cons]
      have hxy : le x y = true := by
        rcases htot x y with h2 | h2
        · exact h2
        · exact absurd h2 (by simpa using h)
      refine ⟨?_, List.Pairwise.cons hy hys⟩
      intro a ha
      rcases List.mem_cons.mp ha with rfl | ha2
      · exact hxy
      · exact htrans x y a hxy (hy a ha2)

theorem stableSortBy_sorted {α : Type} (le : α → α → Bool)
    (htot : ∀ a b, le a b = true ∨ le b a = true)
    (htrans : ∀ a b c, le a b = true → le b c = true → le a c = true)
    (l : List α) : SortedLe le (stableSortBy le l) := by
  have aux : ∀ (l acc : List α), SortedLe le acc →
      SortedLe le (l.foldl (fun acc x => insertLeBy le x acc) acc) := by
    intro l
    induction l with
    | nil => intro acc h; simpa using h
    | cons x xs ih =>
      intro acc h
      simp only [List.foldl_cons]
      exact ih _ (insertLeBy_sorted le htot htrans x acc h)
  exact aux l [] (by simp [SortedLe])

/-! ## Data model (`orchetrust/storage/db.py`)

`CertRecord` is the dict produced by discovery and consumed by
`Inventory.upsert_many`; `InvRow` is one row of the `cert_inventory` table.
SAN lists are stored directly (the JSON round trip `json.dumps`/`json.loads`
of a list of strings is the identity on this data). -/

structure CertRecord where
  fingerprint : String
  source : String
  path : Option String
  location : Option String
  subject : Option String
  issuer : Option String
  not_before : Option String
  not_after : Option String
  sans : List String
  days_left : Option Int
deriving DecidableEq, Repr

structure InvRow where
  fingerprint : String
  source : String
  location : String
  subject : Option String
  issuer : Option String
  not_before : Option String
  not_after : Option String
  sans : List String
  first_seen : Nat
  last_seen : Nat
deriving DecidableEq, Repr

/-- Python string truthiness on an optional string: both `None` and `""` are
falsy (`if source:`, `r.get("path") or ...`). -/
def pyStrOpt : Option String → Option String
  | none => none
  | some s => if s = "" then none else some s

/-- `r.get("path") or r.get("location") or ""` in `upsert_many`. -/
def recLocation (r : CertRecord) : String :=
  match pyStrOpt r.path with
  | some s => s
  | none =>
    match pyStrOpt r.location with
    | some s => s
    | none => ""

/-- The `WHERE fingerprint=:fingerprint AND source=:source AND location=:location`
match of the UPDATE statement in `upsert_many`. -/
def matchesKey (r : CertRecord) (w : InvRow) : Bool :=
  w.fingerprint == r.fingerprint && w.source == r.source && w.location == recLocation r

/-- The SET clause of the UPDATE statement: mutable fields and `last_seen`. -/
def updateRow (now : Nat) (r : CertRecord) (w : InvRow) : InvRow :=
  { w with subject := r.subject, issuer := r.issuer, not_before := r.not_before,
           not_after := r.not_after, sans := r.sans, last_seen := now }

/-- The INSERT statement: new row with `first_seen = last_seen = now`. -/
def newRow (now : Nat) (r : CertRecord) : InvRow :=
  { fingerprint := r.fingerprint, source := r.source, location := recLocation r,
    subject := r.subject, issuer := r.issuer, not_before := r.not_before,
    not_after := r.not_after, sans := r.sans, first_seen := now, last_seen := now }

/-- The effect of the UPDATE statement on a single table row: rows matching
the WHERE clause get the SET clause applied, others are untouched. -/
def applyRec (now : Nat) (r : CertRecord) (w : InvRow) : InvRow :=
  if matchesKey r w then updateRow now r w else w

/-- One iteration of the loop in `Inventory.upsert_many`: UPDATE by identity
triple; if `rowcount == 0`, INSERT (the `OR IGNORE` never fires here because
the INSERT branch is only reached when no row carries the triple). -/
def upsertOne (now : Nat) (db : List InvRow) (r : CertRecord) : List InvRow :=
  if db.any (matchesKey r) then
    db.map (applyRec now r)
  else
    db ++ [newRow now r]

/-- `Inventory.upsert_many`: fold the batch over the table; the returned count
is incremented once per record processed. -/
def upsert_many (now : Nat) (db : List InvRow) (rows : List CertRecord) :
    List InvRow × Nat :=
  (rows.foldl (upsertOne now) db, rows.length)

/-- A sequence of `upsert_many` calls, each with its own wall-clock tick,
starting from a given table state. -/
def runBatchesFrom (db : List InvRow) (calls : List (Nat × List CertRecord)) :
    List InvRow :=
  calls.foldl (fun db c => (upsert_many c.1 db c.2).1) db

/-- A sequence of `upsert_many` calls starting from an empty inventory. -/
def runBatches (calls : List (Nat × List CertRecord)) : List InvRow :=
  runBatchesFrom [] calls

/-! ## `Inventory.list` and `Inventory.purge` -/

/-- SQLite `ORDER BY not_after ASC` comparison on a nullable TEXT column:
NULL sorts before every string; strings compare in byte order. -/
def sqlNotAfterLe (a b : Option String) : Bool :=
  match a, b with
  | none, _ => true
  | some _, none => false
  | some x, some y => strLt x y || x == y

/-- The per-row body of the in-Python `expiring_within_days` filter in
`Inventory.list`: `datetime.fromisoformat(r["not_after"])` (a `None` value or
a parse failure raises, caught by `except: continue`), then
`int((exp - now).total_seconds() // 86400)`, kept iff `<=` the threshold and
annotated with `days_left`. -/
def expiryFilterStep (parse : String → Option Int) (now : Int) (d : Int)
    (w : InvRow) : Option (InvRow × Option Int) :=
  match w.not_after with
  | none => none
  | some s =>
    match parse s with
    | none => none
    | some exp =>
      let dl := Int.fdiv (exp - now) 86400
      if dl ≤ d then some (w, some dl) else none

/-- `Inventory.list(source, expiring_within_days)`.  The result pairs each row
with its `days_left` annotation (`none` when the expiry filter was not
applied, mirroring the absent dict key). -/
def invList (parse : String → Option Int) (now : Int) (db : List InvRow)
    (source : Option String) (expiring_within_days : Option Int) :
    List (InvRow × Option Int) :=
  let rows :=
    match pyStrOpt source with
    | some s => db.filter (fun w => w.source == s)
    | none => db
  let rows := stableSortBy (fun a b => sqlNotAfterLe a.not_after b.not_after) rows
  match expiring_within_days with
  | none => rows.map (fun w => (w, none))
  | some d => rows.filterMap (expiryFilterStep parse now d)

/-- `Inventory.purge(source)`: remaining table and the DELETE rowcount. -/
def invPurge (db : List InvRow) (source : Option String) : List InvRow × Nat :=
  match pyStrOpt source with
  | some s => (db.filter (fun w => !(w.source == s)), (db.filter (fun w => w.source == s)).length)
  | none => ([], db.length)

/-! ## `iso_to_days_left` and the alert composer (`alerts_run` in `cli.py`) -/

/-- `orchetrust/util/timebox.py::iso_to_days_left` (`if not iso_dt: return None`
treats `None` and `""` alike; a parse failure also yields `None`). -/
def iso_to_days_left (parse : String → Option Int) (now : Int)
    (iso_dt : Option String) : Option Int :=
  match pyStrOpt iso_dt with
  | none => none
  | some s =>
    match parse s with
    | none => none
    | some exp => some (Int.fdiv (exp - now) 86400)

/-- The "Ensure days_left is present" loop of `alerts_run`. -/
def ensureDaysLeft (parse : String → Option Int) (now : Int)
    (p : InvRow × Option Int) : InvRow × Option Int :=
  match p.2 with
  | some d => (p.1, some d)
  | none => (p.1, iso_to_days_left parse now p.1.not_after)

/-- The sort key of `alerts_run`:
`(r["days_left"] if r["days_left"] is not None else 999999, r.get("not_after") or "")`. -/
def sortKey (p : InvRow × Option Int) : Int × String :=
  (p.2.getD 999999, p.1.not_after.getD "")

/-- Python tuple comparison on an `(int, str)` key. -/
def keyLe (a b : Int × String) : Bool :=
  if a.1 < b.1 then true else if a.1 = b.1 then strLe a.2 b.2 else false

def rowLe (a b : InvRow × Option Int) : Bool := keyLe (sortKey a) (sortKey b)

/-- `alerts_run` after fetching rows: fill in missing `days_left`, then the
stable `rows.sort(key=...)`. -/
def alertsSorted (parse : String → Option Int) (now : Int)
    (rows : List (InvRow × Option Int)) : List (InvRow × Option Int) :=
  stableSortBy rowLe (rows.map (ensureDaysLeft parse now))

def renderDays : Option Int → String
  | some d => toString d
  | none => "None"

/-- One line of the composed Slack message:
`f"• [{days}d] {subj} — {loc} (exp {exp})"` with
`loc = r.get("location") or r.get("path") or "(no location)"` (inventory rows
carry no `path` key) and `subj = r.get("subject") or "(no subject)"`. -/
def renderLine (p : InvRow × Option Int) : String :=
  let loc := match pyStrOpt (some p.1.location) with
    | some s => s
    | none => "(no location)"
  let subj := match pyStrOpt p.1.subject with
    | some s => s
    | none => "(no subject)"
  let exp := match p.1.not_after with
    | some s => s
    | none => "None"
  "• [" ++ renderDays p.2 ++ "d] " ++ subj ++ " — " ++ loc ++ " (exp " ++ exp ++ ")"

/-- Outcome of composing an alert run over the sorted rows: `noRows` is the
"No certificates expiring within N day(s)" success path; otherwise `count` is
the total row count reported in the headline, `lines` the rendered per-row
lines capped at the first 20, and `more` the `"...and N more"` notice. -/
structure AlertResult where
  noRows : Bool
  count : Nat
  lines : List String
  more : Option String
deriving DecidableEq, Repr

/-- The message-composition tail of `alerts_run`: empty input is the success
"no rows" outcome; otherwise render `rows[:20]` and append the
`f"...and {len(rows)-20} more"` line when over 20 rows. -/
def alertsCompose (parse : String → Option Int) (now : Int)
    (rows : List (InvRow × Option Int)) : AlertResult :=
  let s := alertsSorted parse now rows
  if s.isEmpty then
    { noRows := true, count := 0, lines := [], more := none }
  else
    { noRows := false,
      count := s.length,
      lines := (s.take 20).map renderLine,
      more := if 20 < s.length then some ("...and " ++ toString (s.length - 20) ++ " more")
              else none }

/-! ## Filesystem discovery (`orchetrust/discovery/filesystem.py`)

A filesystem snapshot is a list of regular files, each named by its absolute
path components and carrying raw bytes; `cwd`/`home` resolve relative and
`~`-prefixed root paths.  A `PyPath` is a `pathlib.Path` value: a flag for
absoluteness plus components, rendered by `str()` with `/` separators.
X.509 decoding is abstract: `pemParse`/`derParse` stand for
`x509.load_pem_x509_certificate` / `load_der_x509_certificate`. -/

structure PyPath where
  isAbs : Bool
  comps : List String
deriving DecidableEq, Repr

/-- `str(path)`. -/
def strPath (p : PyPath) : String :=
  (if p.isAbs then "/" else "") ++ String.intercalate "/" p.comps

/-- `Path.expanduser()`: a leading `~` component becomes the home directory
(making the path absolute); otherwise the path is unchanged. -/
def expanduser (home : List String) (p : PyPath) : PyPath :=
  match p.isAbs, p.comps with
  | false, "~" :: rest => { isAbs := true, comps := home ++ rest }
  | _, _ => p

/-- Absolute components a path denotes, resolving relative paths against the
current working directory (as the OS does for `is_file`/`is_dir`/`open`). -/
def resolveAbs (cwd : List String) (p : PyPath) : List String :=
  if p.isAbs then p.comps else cwd ++ p.comps

structure FsFile where
  comps : List String
  bytes : List Nat
deriving DecidableEq, Repr

structure Fs where
  cwd : List String
  home : List String
  files : List FsFile
deriving Repr

/-- `pathlib.PurePath.suffix` of a file name: the part from the last dot,
empty when there is no dot, the only dot is leading, or the dot is final. -/
def rfindDot : List Char → Option Nat
  | [] => none
  | c :: cs =>
    match rfindDot cs with
    | some i => some (i + 1)
    | none => if c = '.' then some 0 else none

def pySuffix (name : String) : String :=
  let cs := name.data
  match rfindDot cs with
  | none => ""
  | some i => if 0 < i ∧ i < cs.length - 1 then String.mk (cs.drop i) else ""

/-- `str.lower()` on the code points of a suffix. -/
def strToLower (s : String) : String := String.mk (s.data.map Char.toLower)

def CERT_EXTS : List String := [".pem", ".crt", ".cer"]

/-- `p.suffix.lower() in CERT_EXTS` on a path's final component. -/
def hasCertExt (p : PyPath) : Bool :=
  CERT_EXTS.contains (strToLower (pySuffix (p.comps.getLastD "")))

def isFile (fs : Fs) (abs : List String) : Bool :=
  fs.files.any (fun f => f.comps == abs)

/-- A directory, for traversal purposes: some regular file lies strictly
beneath it (an empty directory contributes no candidates either way). -/
def isDir (fs : Fs) (abs : List String) : Bool :=
  fs.files.any (fun f => abs.isPrefixOf f.comps && !(f.comps == abs))

/-- `_iter_candidate_files`: per root, `expanduser`, then a file root with a
recognized extension is itself a candidate, and a directory root contributes
every file with a recognized extension beneath it, named as `rglob` names it:
the root path as given joined with the relative remainder. -/
def iterCandidateFiles (fs : Fs) (paths : List PyPath) : List PyPath :=
  (paths.map (fun base =>
    let p := expanduser fs.home base
    let abs := resolveAbs fs.cwd p
    if isFile fs abs then
      if hasCertExt p then [p] else []
    else if isDir fs abs then
      fs.files.filterMap (fun f =>
        if abs.isPrefixOf f.comps && !(f.comps == abs) then
          let q : PyPath := { isAbs := p.isAbs, comps := p.comps ++ f.comps.drop abs.length }
          if hasCertExt q then some q else none
        else none)
    else [])).flatten

/-- Abstract parsed-certificate value: what `scan_filesystem` reads off a
`cryptography` certificate object (`not_after_sec` is the expiry instant in
seconds, `not_after_iso` its `isoformat()` rendering). -/
structure Cert where
  fingerprint : String
  subject : String
  issuer : String
  not_before_iso : String
  not_after_iso : String
  not_after_sec : Int
  sans : List String
deriving DecidableEq, Repr

/-- `_load_cert`: try PEM, then DER; `none` when both decodings fail. -/
def load_cert (pemParse derParse : List Nat → Option Cert) (bytes : List Nat) :
    Option Cert :=
  match pemParse bytes with
  | some c => some c
  | none => derParse bytes

/-- `path.read_bytes()` on a candidate path. -/
def bytesAt (fs : Fs) (p : PyPath) : List Nat :=
  match fs.files.find? (fun g => g.comps == resolveAbs fs.cwd p) with
  | some g => g.bytes
  | none => []

/-- The record `scan_filesystem` appends for one successfully parsed file. -/
def recordOf (now : Int) (f : PyPath) (cert : Cert) : CertRecord :=
  { fingerprint := cert.fingerprint,
    source := "filesystem",
    path := some (strPath f),
    location := none,
    subject := some cert.subject,
    issuer := some cert.issuer,
    not_before := some cert.not_before_iso,
    not_after := some cert.not_after_iso,
    sans := cert.sans,
    days_left := some (Int.fdiv (cert.not_after_sec - now) 86400) }

/-- The per-candidate body of the `scan_filesystem` loop: `if not cert:
continue` skips a file whose bytes fail both decodings. -/
def scanStep (pemParse derParse : List Nat → Option Cert) (now : Int)
    (fs : Fs) (f : PyPath) : Option CertRecord :=
  match load_cert pemParse derParse (bytesAt fs f) with
  | none => none
  | some cert => some (recordOf now f cert)

/-- `scan_filesystem`: parse each candidate independently, skipping failures. -/
def scan_filesystem (pemParse derParse : List Nat → Option Cert) (now : Int)
    (fs : Fs) (paths : List PyPath) : List CertRecord :=
  (iterCandidateFiles fs paths).filterMap (scanStep pemParse derParse now fs)

/-! ## Store lemmas: identity triples, update/insert behaviour -/

/-- The identity triple of a stored row. -/
def rowKey (w : InvRow) : String × String × String :=
  (w.fingerprint, w.source, w.location)

/-- The mutable (SET-clause) fields of a stored row. -/
def mutableOf (w : InvRow) :
    Option String × Option String × Option String × Option String × List String :=
  (w.subject, w.issuer, w.not_before, w.not_after, w.sans)

/-- The fields a record contributes to the SET clause. -/
def mutableOfRec (r : CertRecord) :
    Option String × Option String × Option String × Option String × List String :=
  (r.subject, r.issuer, r.not_before, r.not_after, r.sans)

theorem rowKey_updateRow (now : Nat) (r : CertRecord) (w : InvRow) :
    rowKey (updateRow now r w) = rowKey w := rfl

theorem first_seen_updateRow (now : Nat) (r : CertRecord) (w : InvRow) :
    (updateRow now r w).first_seen = w.first_seen := rfl

theorem matchesKey_iff (r : CertRecord) (w : InvRow) :
    matchesKey r w = true ↔ rowKey w = (r.fingerprint, r.source, recLocation r) := by
  simp [matchesKey, rowKey, Prod.ext_iff, Bool.and_eq_true, beq_iff_eq, and_assoc]

theorem matchesKey_congr (r : CertRecord) {w w' : InvRow}
    (h : rowKey w = rowKey w') : matchesKey r w = matchesKey r w' := by
  have h1 : w.fingerprint = w'.fingerprint := congrArg Prod.fst h
  have h2 : w.source = w'.source := congrArg (Prod.fst ∘ Prod.snd) h
  have h3 : w.location = w'.location := congrArg (Prod.snd ∘ Prod.snd) h
  simp [matchesKey, h1, h2, h3]

theorem rowKey_applyRec (now : Nat) (r : CertRecord) (w : InvRow) :
    rowKey (applyRec now r w) = rowKey w := by
  unfold applyRec; split <;> rfl

theorem first_seen_applyRec (now : Nat) (r : CertRecord) (w : InvRow) :
    (applyRec now r w).first_seen = w.first_seen := by
  unfold applyRec; split <;> rfl

theorem matchesKey_applyRec (r' : CertRecord) (now : Nat) (r : CertRecord) (w : InvRow) :
    matchesKey r' (applyRec now r w) = matchesKey r' w :=
  matchesKey_congr r' (rowKey_applyRec now r w)

theorem matchesKey_newRow (now : Nat) (r : CertRecord) :
    matchesKey r (newRow now r) = true := by
  simp [matchesKey, newRow]

theorem upsertOne_of_match {db : List InvRow} {r : CertRecord} (now : Nat)
    (h : db.any (matchesKey r) = true) :
    upsertOne now db r = db.map (applyRec now r) := by
  simp [upsertOne, h]

theorem upsertOne_of_no_match {db : List InvRow} {r : CertRecord} (now : Nat)
    (h : db.any (matchesKey r) = false) :
    upsertOne now db r = db ++ [newRow now r] := by
  simp [upsertOne, h]

theorem any_matchesKey_map (r' : CertRecord) (now : Nat) (r : CertRecord)
    (db : List InvRow) :
    (db.map (applyRec now r)).any (matchesKey r') = db.any (matchesKey r') := by
  rw [List.any_map]
  have : matchesKey r' ∘ applyRec now r = matchesKey r' := by
    funext w; exact matchesKey_applyRec r' now r w
  rw [this]

theorem upsertOne_any_self (now : Nat) (db : List InvRow) (r : CertRecord) :
    (upsertOne now db r).any (matchesKey r) = true := by
  cases h : db.any (matchesKey r) with
  | true => rw [upsertOne_of_match now h, any_matchesKey_map]; exact h
  | false =>
    rw [upsertOne_of_no_match now h]
    simp [List.any_append, matchesKey_newRow]

theorem upsertOne_any_mono {db : List InvRow} {r' : CertRecord} (now : Nat)
    (r : CertRecord) (h : db.any (matchesKey r') = true) :
    (upsertOne now db r).any (matchesKey r') = true := by
  cases hm : db.any (matchesKey r) with
  | true => rw [upsertOne_of_match now hm, any_matchesKey_map]; exact h
  | false => rw [upsertOne_of_no_match now hm]; simp [List.any_append, h]

/-- The uniqueness invariant of the schema's `UNIQUE(fingerprint, source,
location)` constraint: no two rows share an identity triple. -/
def uniqueTriples (db : List InvRow) : Prop := (db.map rowKey).Nodup

theorem map_rowKey_map_applyRec (now : Nat) (r : CertRecord) (db : List InvRow) :
    (db.map (applyRec now r)).map rowKey = db.map rowKey := by
  rw [List.map_map]
  have : rowKey ∘ applyRec now r = rowKey := by
    funext w; exact rowKey_applyRec now r w
  rw [this]

theorem uniqueTriples_upsertOne {db : List InvRow} (now : Nat) (r : CertRecord)
    (h : uniqueTriples db) : uniqueTriples (upsertOne now db r) := by
  cases hm : db.any (matchesKey r) with
  | true =>
    rw [uniqueTriples, upsertOne_of_match now hm, map_rowKey_map_applyRec]
    exact h
  | false =>
    rw [uniqueTriples, upsertOne_of_no_match now hm]
    rw [List.map_append, List.nodup_append]
    refine ⟨h, by simp, ?_⟩
    intro k hk hk2
    simp only [List.map_cons, List.map_nil, List.mem_singleton] at hk2
    subst hk2
    rcases List.mem_map.mp hk with ⟨w, hw, hwk⟩
    have hmatch : matchesKey r w = true := by
      rw [matchesKey_iff]
      rw [hwk]
      rfl
    have : db.any (matchesKey r) = true := List.any_eq_true.mpr ⟨w, hw, hmatch⟩
    rw [hm] at this
    exact Bool.false_ne_true this

theorem uniqueTriples_upsertMany (now : Nat) :
    ∀ (rows : List CertRecord) (db : List InvRow), uniqueTriples db →
      uniqueTriples (rows.foldl (upsertOne now) db) := by
  intro rows
  induction rows with
  | nil => intro db h; exact h
  | cons r rs ih =>
    intro db h
    exact ih _ (uniqueTriples_upsertOne now r h)

theorem uniqueTriples_runBatchesFrom :
    ∀ (calls : List (Nat × List CertRecord)) (db : List InvRow), uniqueTriples db →
      uniqueTriples (runBatchesFrom db calls) := by
  intro calls
  induction calls with
  | nil => intro db h; exact h
  | cons c cs ih =>
    intro db h
    exact ih _ (uniqueTriples_upsertMany c.1 c.2 db h)

/-! ## Second-upsert analysis (idempotence machinery) -/

/-- The last record of a batch whose identity triple matches a given row
(the loop in `upsert_many` applies records in order, so the last matching
record's fields win). -/
def lastMatch (R : List CertRecord) (w : InvRow) : Option CertRecord :=
  match R with
  | [] => none
  | r :: rs =>
    match lastMatch rs w with
    | some r' => some r'
    | none => if matchesKey r w then some r else none

theorem lastMatch_congr (R : List CertRecord) {w w' : InvRow}
    (h : rowKey w = rowKey w') : lastMatch R w = lastMatch R w' := by
  induction R with
  | nil => rfl
  | cons r rs ih =>
    simp only [lastMatch, ih, matchesKey_congr r h]

theorem lastMatch_some_mem {R : List CertRecord} {w : InvRow} {r0 : CertRecord}
    (h : lastMatch R w = some r0) : r0 ∈ R ∧ matchesKey r0 w = true := by
  induction R with
  | nil => exact absurd h (by simp [lastMatch])
  | cons r rs ih =>
    simp only [lastMatch] at h
    cases h2 : lastMatch rs w with
    | some r' =>
      rw [h2] at h
      simp only [Option.some.injEq] at h
      subst h
      obtain ⟨hmem, hmk⟩ := ih h2
      exact ⟨List.mem_cons_of_mem r hmem, hmk⟩
    | none =>
      rw [h2] at h
      by_cases hm : matchesKey r w = true
      · rw [if_pos hm] at h
        simp only [Option.some.injEq] at h
        subst h
        exact ⟨List.mem_cons_self r rs, hm⟩
      · rw [if_neg hm] at h
        exact absurd h (by simp)

theorem lastMatch_none_iff (R : List CertRecord) (w : InvRow) :
    lastMatch R w = none ↔ ∀ r ∈ R, matchesKey r w = false := by
  induction R with
  | nil => simp [lastMatch]
  | cons r rs ih =>
    simp only [lastMatch]
    cases h2 : lastMatch rs w with
    | some r' =>
      simp only []
      constructor
      · intro hc; exact absurd hc (by simp)
      · intro hall
        obtain ⟨hmem, hmk⟩ := lastMatch_some_mem h2
        have := hall r' (List.mem_cons_of_mem r hmem)
        rw [this] at hmk
        exact absurd hmk (by simp)
    | none =>
      have hrs : ∀ r' ∈ rs, matchesKey r' w = false := ih.mp h2
      by_cases hm : matchesKey r w = true
      · simp only [if_pos hm]
        constructor
        · intro hc; exact absurd hc (by simp)
        · intro hall
          have := hall r (List.mem_cons_self r rs)
          rw [this] at hm
          exact absurd hm (by simp)
      · simp only [if_neg hm]
        constructor
        · intro _ r' hr'
          rcases List.mem_cons.mp hr' with rfl | hmem
          · simpa using hm
          · exact hrs r' hmem
        · intro _; trivial

theorem updateRow_updateRow (t t' : Nat) (r r' : CertRecord) (w : InvRow) :
    updateRow t r' (updateRow t' r w) = updateRow t r' w := rfl

/-- Applying a whole batch of per-row UPDATE effects to one row: the last
matching record wins, non-matching batches leave the row alone. -/
theorem foldl_applyRec (t : Nat) :
    ∀ (R : List CertRecord) (w : InvRow),
      R.foldl (fun w r => applyRec t r w) w =
        match lastMatch R w with
        | none => w
        | some r0 => updateRow t r0 w := by
  intro R
  induction R with
  | nil => intro w; rfl
  | cons r rs ih =>
    intro w
    simp only [List.foldl_cons, lastMatch]
    by_cases hm : matchesKey r w = true
    · have happ : applyRec t r w = updateRow t r w := by simp [applyRec, hm]
      rw [happ, ih (updateRow t r w)]
      rw [lastMatch_congr rs (rowKey_updateRow t r w)]
      cases h2 : lastMatch rs w with
      | some r' => simp [updateRow_updateRow]
      | none => simp [hm]
    · have happ : applyRec t r w = w := by simp [applyRec, hm]
      rw [happ, ih w]
      cases h2 : lastMatch rs w with
      | some r' => simp
      | none => simp [hm]

/-- When every record of the batch already has a matching row, `upsert_many`
is a pure map over the table (every iteration takes the UPDATE branch). -/
theorem foldl_upsertOne_of_all_match (t : Nat) :
    ∀ (R : List CertRecord) (db : List InvRow),
      (∀ r ∈ R, db.any (matchesKey r) = true) →
      R.foldl (upsertOne t) db = db.map (fun w => R.foldl (fun w r => applyRec t r w) w) := by
  intro R
  induction R with
  | nil => intro db _; simp
  | cons r rs ih =>
    intro db hall
    simp only [List.foldl_cons]
    rw [upsertOne_of_match t (hall r (List.mem_cons_self r rs))]
    rw [ih (db.map (applyRec t r)) ?_]
    · rw [List.map_map]
      rfl
    · intro r' hr'
      rw [any_matchesKey_map]
      exact hall r' (List.mem_cons_of_mem r hr')

/-- A row untouched by every record of a batch was already in the table. -/
theorem mem_of_foldl_upsertOne_no_match (t : Nat) :
    ∀ (R : List CertRecord) (db : List InvRow) (w : InvRow),
      w ∈ R.foldl (upsertOne t) db →
      (∀ r ∈ R, matchesKey r w = false) →
      w ∈ db := by
  intro R
  induction R with
  | nil => intro db w h _; exact h
  | cons r rs ih =>
    intro db w h hall
    have h1 : w ∈ upsertOne t db r :=
      ih (upsertOne t db r) w h (fun r' hr' => hall r' (List.mem_cons_of_mem r hr'))
    have hr : matchesKey r w = false := hall r (List.mem_cons_self r rs)
    cases hm : db.any (matchesKey r) with
    | true =>
      rw [upsertOne_of_match t hm] at h1
      rcases List.mem_map.mp h1 with ⟨w0, hw0, hww0⟩
      have hkey : matchesKey r w0 = matchesKey r w := by
        rw [← hww0, matchesKey_applyRec]
      rw [hr] at hkey
      have : applyRec t r w0 = w0 := by simp [applyRec, hkey]
      rw [this] at hww0
      rw [← hww0]
      exact hw0
    | false =>
      rw [upsertOne_of_no_match t hm] at h1
      rcases List.mem_append.mp h1 with h2 | h2
      · exact h2
      · simp only [List.mem_singleton] at h2
        subst h2
        rw [matchesKey_newRow] at hr
        exact absurd hr (by simp)

/-- After `upsertOne`, any row matching the just-processed record carries that
record's mutable fields and `last_seen = now` (both the UPDATE and the INSERT
branch establish this). -/
theorem fields_of_mem_upsertOne {t : Nat} {db : List InvRow} {r : CertRecord}
    {w : InvRow} (h : w ∈ upsertOne t db r) (hm : matchesKey r w = true) :
    mutableOf w = mutableOfRec r ∧ w.last_seen = t := by
  cases hb : db.any (matchesKey r) with
  | true =>
    rw [upsertOne_of_match t hb] at h
    rcases List.mem_map.mp h with ⟨w0, hw0, hww0⟩
    have hkey : matchesKey r w0 = true := by
      rw [← matchesKey_applyRec r t r w0, hww0, hm]
    have : applyRec t r w0 = updateRow t r w0 := by simp [applyRec, hkey]
    rw [this] at hww0
    subst hww0
    exact ⟨rfl, rfl⟩
  | false =>
    rw [upsertOne_of_no_match t hb] at h
    rcases List.mem_append.mp h with h2 | h2
    · have : db.any (matchesKey r) = true := List.any_eq_true.mpr ⟨w, h2, hm⟩
      rw [hb] at this
      exact absurd this (by simp)
    · simp only [List.mem_singleton] at h2
      subst h2
      exact ⟨rfl, rfl⟩

/-- After one `upsert_many` call, every row some batch record matches carries
the mutable fields of the *last* matching record, with `last_seen` the call
time. -/
theorem fields_after_upsertMany (t : Nat) :
    ∀ (R : List CertRecord) (db : List InvRow) (w : InvRow) (r0 : CertRecord),
      w ∈ R.foldl (upsertOne t) db →
      lastMatch R w = some r0 →
      mutableOf w = mutableOfRec r0 ∧ w.last_seen = t := by
  intro R
  induction R with
  | nil => intro db w r0 _ hlm; exact absurd hlm (by simp [lastMatch])
  | cons r rs ih =>
    intro db w r0 hmem hlm
    simp only [List.foldl_cons] at hmem
    simp only [lastMatch] at hlm
    cases h2 : lastMatch rs w with
    | some r' =>
      rw [h2] at hlm
      simp only [Option.some.injEq] at hlm
      exact hlm ▸ ih (upsertOne t db r) w r' hmem h2
    | none =>
      rw [h2] at hlm
      by_cases hm : matchesKey r w = true
      · rw [if_pos hm] at hlm
        simp only [Option.some.injEq] at hlm
        have hnors : ∀ r' ∈ rs, matchesKey r' w = false := (lastMatch_none_iff rs w).mp h2
        have hin : w ∈ upsertOne t db r :=
          mem_of_foldl_upsertOne_no_match t rs (upsertOne t db r) w hmem hnors
        exact hlm ▸ fields_of_mem_upsertOne hin hm
      · rw [if_neg hm] at hlm
        exact absurd hlm (by simp)

/-- A matching row, once present, survives the rest of the batch. -/
theorem any_preserved_foldl (t : Nat) (r : CertRecord) :
    ∀ (R : List CertRecord) (db : List InvRow), db.any (matchesKey r) = true →
      (R.foldl (upsertOne t) db).any (matchesKey r) = true := by
  intro R
  induction R with
  | nil => intro db h; exact h
  | cons r2 rs ih =>
    intro db h
    simp only [List.foldl_cons]
    exact ih _ (upsertOne_any_mono t r2 h)

/-- Every record of a processed batch has a matching row afterwards. -/
theorem any_after_upsertMany (t : Nat) :
    ∀ (R : List CertRecord) (db : List InvRow) (r : CertRecord), r ∈ R →
      (R.foldl (upsertOne t) db).any (matchesKey r) = true := by
  intro R
  induction R with
  | nil => intro db r h; exact absurd h (by simp)
  | cons r' rs ih =>
    intro db r h
    rcases List.mem_cons.mp h with rfl | hmem
    · simp only [List.foldl_cons]
      exact any_preserved_foldl t r rs _ (upsertOne_any_self t db r)
    · simp only [List.foldl_cons]
      exact ih _ r hmem

theorem updateRow_of_fields {t : Nat} {r : CertRecord} {w : InvRow}
    (h : mutableOf w = mutableOfRec r) : updateRow t r w = { w with last_seen := t } := by
  simp only [mutableOf, mutableOfRec, Prod.ext_iff] at h
  obtain ⟨h1, h2, h3, h4, h5⟩ := h
  simp [updateRow, ← h1, ← h2, ← h3, ← h4, ← h5]

/-- Re-running an identical batch only rewrites `last_seen` on the rows the
batch matches: mutable fields are overwritten with the values they already
hold, and no INSERT branch is ever taken. -/
theorem upsertMany_twice (t1 t2 : Nat) (db : List InvRow) (R : List CertRecord) :
    (upsert_many t2 (upsert_many t1 db R).1 R).1 =
      (upsert_many t1 db R).1.map
        (fun w => if R.any (fun r => matchesKey r w) then { w with last_seen := t2 } else w) := by
  have hall : ∀ r ∈ R, ((upsert_many t1 db R).1).any (matchesKey r) = true := by
    intro r hr
    exact any_after_upsertMany t1 R db r hr
  show R.foldl (upsertOne t2) ((upsert_many t1 db R).1) = _
  rw [foldl_upsertOne_of_all_match t2 R _ hall]
  apply List.map_congr_left
  intro w hw
  rw [foldl_applyRec t2 R w]
  cases hlm : lastMatch R w with
  | none =>
    have hnone : ∀ r ∈ R, matchesKey r w = false := (lastMatch_none_iff R w).mp hlm
    have hany : R.any (fun r => matchesKey r w) = false := by
      rw [List.any_eq_false]
      intro r hr
      simp [hnone r hr]
    simp [hany]
  | some r0 =>
    obtain ⟨hr0mem, hr0match⟩ := lastMatch_some_mem hlm
    have hany : R.any (fun r => matchesKey r w) = true :=
      List.any_eq_true.mpr ⟨r0, hr0mem, hr0match⟩
    simp only [hany, if_true]
    have hf := fields_after_upsertMany t1 R db w r0 hw hlm
    exact updateRow_of_fields hf.1

/-! ## Temporal bookkeeping (`first_seen` / `last_seen`) -/

/-- Executable monotonicity of a sequence of call times. -/
def chainLe : Nat → List Nat → Bool
  | _, [] => true
  | t, x :: xs => decide (t ≤ x) && chainLe x xs

/-- All rows satisfy `first_seen <= last_seen` and are no newer than `T`. -/
def timesOk (db : List InvRow) (T : Nat) : Prop :=
  ∀ w ∈ db, w.first_seen ≤ w.last_seen ∧ w.last_seen ≤ T

/-- All row timestamps come from the given set of store call times. -/
def timesFrom (db : List InvRow) (ts : List Nat) : Prop :=
  ∀ w ∈ db, w.first_seen ∈ ts ∧ w.last_seen ∈ ts

theorem timesOk_upsertOne {db : List InvRow} {T now : Nat} (r : CertRecord)
    (h : timesOk db T) (hT : T ≤ now) : timesOk (upsertOne now db r) now := by
  intro w hw
  cases hm : db.any (matchesKey r) with
  | true =>
    rw [upsertOne_of_match now hm] at hw
    rcases List.mem_map.mp hw with ⟨w0, hw0, hww0⟩
    obtain ⟨hfl, hlT⟩ := h w0 hw0
    subst hww0
    unfold applyRec
    split
    · exact ⟨le_trans hfl (le_trans hlT hT), le_refl now⟩
    · exact ⟨hfl, le_trans hlT hT⟩
  | false =>
    rw [upsertOne_of_no_match now hm] at hw
    rcases List.mem_append.mp hw with h2 | h2
    · obtain ⟨hfl, hlT⟩ := h w h2
      exact ⟨hfl, le_trans hlT hT⟩
    · simp only [List.mem_singleton] at h2
      subst h2
      exact ⟨le_refl now, le_refl now⟩

theorem timesOk_foldl (now : Nat) :
    ∀ (R : List CertRecord) (db : List InvRow) (T : Nat),
      timesOk db T → T ≤ now → timesOk (R.foldl (upsertOne now) db) now := by
  intro R
  induction R with
  | nil => intro db T h hT w hw; obtain ⟨h1, h2⟩ := h w hw; exact ⟨h1, le_trans h2 hT⟩
  | cons r rs ih =>
    intro db T h hT
    simp only [List.foldl_cons]
    exact ih _ now (timesOk_upsertOne r h hT) (le_refl now)

theorem timesOk_runBatchesFrom :
    ∀ (calls : List (Nat × List CertRecord)) (db : List InvRow) (T : Nat),
      timesOk db T → chainLe T (calls.map Prod.fst) = true →
      ∃ T', timesOk (runBatchesFrom db calls) T' := by
  intro calls
  induction calls with
  | nil => intro db T h _; exact ⟨T, h⟩
  | cons c cs ih =>
    intro db T h hchain
    simp only [List.map_cons, chainLe, Bool.and_eq_true, decide_eq_true_eq] at hchain
    obtain ⟨hTc, hrest⟩ := hchain
    exact ih _ c.1 (timesOk_foldl c.1 c.2 db T h hTc) hrest

theorem timesFrom_upsertOne {db : List InvRow} {ts : List Nat} {now : Nat}
    (r : CertRecord) (h : timesFrom db ts) (hn : now ∈ ts) :
    timesFrom (upsertOne now db r) ts := by
  intro w hw
  cases hm : db.any (matchesKey r) with
  | true =>
    rw [upsertOne_of_match now hm] at hw
    rcases List.mem_map.mp hw with ⟨w0, hw0, hww0⟩
    obtain ⟨hf, hl⟩ := h w0 hw0
    subst hww0
    unfold applyRec
    split
    · exact ⟨hf, hn⟩
    · exact ⟨hf, hl⟩
  | false =>
    rw [upsertOne_of_no_match now hm] at hw
    rcases List.mem_append.mp hw with h2 | h2
    · exact h w h2
    · simp only [List.mem_singleton] at h2
      subst h2
      exact ⟨hn, hn⟩

theorem timesFrom_foldl {ts : List Nat} (now : Nat) (hn : now ∈ ts) :
    ∀ (R : List CertRecord) (db : List InvRow),
      timesFrom db ts → timesFrom (R.foldl (upsertOne now) db) ts := by
  intro R
  induction R with
  | nil => intro db h; exact h
  | cons r rs ih =>
    intro db h
    simp only [List.foldl_cons]
    exact ih _ (timesFrom_upsertOne r h hn)

theorem timesFrom_runBatchesFrom {ts : List Nat} :
    ∀ (calls : List (Nat × List CertRecord)) (db : List InvRow),
      timesFrom db ts → (∀ c ∈ calls, c.1 ∈ ts) →
      timesFrom (runBatchesFrom db calls) ts := by
  intro calls
  induction calls with
  | nil => intro db h _; exact h
  | cons c cs ih =>
    intro db h hmem
    exact ih _
      (timesFrom_foldl c.1 (hmem c (List.mem_cons_self c cs)) c.2 db h)
      (fun c' hc' => hmem c' (List.mem_cons_of_mem c hc'))

/-- Frame property of a single upsert iteration: pre-existing rows keep their
position, identity triple and `first_seen`. -/
theorem upsertOne_frame (now : Nat) (db : List InvRow) (r : CertRecord) :
    ((upsertOne now db r).take db.length).map InvRow.first_seen
        = db.map InvRow.first_seen ∧
    ((upsertOne now db r).take db.length).map rowKey = db.map rowKey ∧
    db.length ≤ (upsertOne now db r).length := by
  cases hm : db.any (matchesKey r) with
  | true =>
    rw [upsertOne_of_match now hm]
    have htake : (db.map (applyRec now r)).take db.length = db.map (applyRec now r) := by
      rw [show db.length = (db.map (applyRec now r)).length by simp, List.take_length]
    rw [htake]
    refine ⟨?_, ?_, by simp⟩
    · rw [List.map_map]
      have : InvRow.first_seen ∘ applyRec now r = InvRow.first_seen := by
        funext w; exact first_seen_applyRec now r w
      rw [this]
    · exact map_rowKey_map_applyRec now r db
  | false =>
    rw [upsertOne_of_no_match now hm]
    rw [List.take_left]
    exact ⟨rfl, rfl, by simp⟩

/-! ## Order properties of the two sort comparators -/

theorem keyLe_iff (a b : Int × String) :
    keyLe a b = true ↔ a.1 < b.1 ∨ (a.1 = b.1 ∧ strLe a.2 b.2 = true) := by
  unfold keyLe
  by_cases h1 : a.1 < b.1
  · simp [h1]
  · by_cases h2 : a.1 = b.1
    · simp [h1, h2]
    · simp [h1, h2]

theorem keyLe_total (a b : Int × String) : keyLe a b = true ∨ keyLe b a = true := by
  rcases lt_trichotomy a.1 b.1 with h | h | h
  · left; rw [keyLe_iff]; exact Or.inl h
  · rcases strLe_total a.2 b.2 with h2 | h2
    · left; rw [keyLe_iff]; exact Or.inr ⟨h, h2⟩
    · right; rw [keyLe_iff]; exact Or.inr ⟨h.symm, h2⟩
  · right; rw [keyLe_iff]; exact Or.inl h

theorem keyLe_trans (a b c : Int × String)
    (hab : keyLe a b = true) (hbc : keyLe b c = true) : keyLe a c = true := by
  rw [keyLe_iff] at hab hbc ⊢
  rcases hab with h1 | ⟨h1, h1s⟩
  · rcases hbc with h2 | ⟨h2, _⟩
    · exact Or.inl (lt_trans h1 h2)
    · exact Or.inl (h2 ▸ h1)
  · rcases hbc with h2 | ⟨h2, h2s⟩
    · exact Or.inl (h1 ▸ h2)
    · exact Or.inr ⟨h1.trans h2, strLe_trans h1s h2s⟩

theorem rowLe_total (a b : InvRow × Option Int) : rowLe a b = true ∨ rowLe b a = true :=
  keyLe_total (sortKey a) (sortKey b)

theorem rowLe_trans (a b c : InvRow × Option Int)
    (hab : rowLe a b = true) (hbc : rowLe b c = true) : rowLe a c = true :=
  keyLe_trans (sortKey a) (sortKey b) (sortKey c) hab hbc

theorem sqlNotAfterLe_total (a b : Option String) :
    sqlNotAfterLe a b = true ∨ sqlNotAfterLe b a = true := by
  cases a with
  | none => left; rfl
  | some x =>
    cases b with
    | none => right; rfl
    | some y => exact strLe_total x y

theorem sqlNotAfterLe_trans (a b c : Option String)
    (hab : sqlNotAfterLe a b = true) (hbc : sqlNotAfterLe b c = true) :
    sqlNotAfterLe a c = true := by
  cases a with
  | none => rfl
  | some x =>
    cases b with
    | none => exact absurd hab (by simp [sqlNotAfterLe])
    | some y =>
      cases c with
      | none => exact absurd hbc (by simp [sqlNotAfterLe])
      | some z => exact strLe_trans hab hbc

/-- The composed alert rows are sorted by the sentinel key
`(days_left or 999999, not_after or "")`. -/
theorem alertsSorted_sorted (parse : String → Option Int) (now : Int)
    (rows : List (InvRow × Option Int)) :
    SortedLe rowLe (alertsSorted parse now rows) :=
  stableSortBy_sorted rowLe rowLe_total rowLe_trans _

theorem alertsSorted_perm (parse : String → Option Int) (now : Int)
    (rows : List (InvRow × Option Int)) :
    (alertsSorted parse now rows).Perm (rows.map (ensureDaysLeft parse now)) :=
  stableSortBy_perm rowLe _

theorem alertsSorted_length (parse : String → Option Int) (now : Int)
    (rows : List (InvRow × Option Int)) :
    (alertsSorted parse now rows).length = rows.length := by
  rw [(alertsSorted_perm parse now rows).length_eq, List.length_map]

/-- The expiry-filter step never changes the row it keeps. -/
theorem expiryFilterStep_fst {parse : String → Option Int} {now d : Int}
    {w : InvRow} {p : InvRow × Option Int}
    (h : expiryFilterStep parse now d w = some p) : p.1 = w := by
  unfold expiryFilterStep at h
  split at h
  · exact absurd h (by simp)
  · split at h
    · exact absurd h (by simp)
    · dsimp only [] at h
      split at h
      · simp only [Option.some.injEq] at h
        rw [← h]
      · exact absurd h (by simp)

/-- Without the expiry filter, `Inventory.list` output is ordered by the SQL
`ORDER BY not_after ASC` comparator (NULL first, then byte order). -/
theorem invList_sorted_nofilter (parse : String → Option Int) (now : Int)
    (db : List InvRow) (source : Option String) :
    (invList parse now db source none).Pairwise
      (fun p q => sqlNotAfterLe p.1.not_after q.1.not_after = true) := by
  unfold invList
  simp only []
  rw [List.pairwise_map]
  exact stableSortBy_sorted _
    (fun (a b : InvRow) => sqlNotAfterLe_total a.not_after b.not_after)
    (fun (a b c : InvRow) => sqlNotAfterLe_trans a.not_after b.not_after c.not_after) _

/-- Generic: the length of a `filterMap` counts the inputs mapped to `some`. -/
theorem length_filterMap_eq_length_filter {α β : Type} (g : α → Option β) :
    ∀ l : List α, (l.filterMap g).length = (l.filter (fun x => (g x).isSome)).length := by
  intro l
  induction l with
  | nil => rfl
  | cons x xs ih =>
    cases hg : g x with
    | none => simp [List.filterMap_cons, List.filter_cons, hg, ih]
    | some b => simp [List.filterMap_cons, List.filter_cons, hg, ih]

theorem invList_none_some (parse : String → Option Int) (now : Int)
    (db : List InvRow) (d : Int) :
    invList parse now db none (some d) =
      (stableSortBy (fun a b => sqlNotAfterLe a.not_after b.not_after) db).filterMap
        (expiryFilterStep parse now d) := rfl

theorem invList_none_none (parse : String → Option Int) (now : Int)
    (db : List InvRow) :
    invList parse now db none none =
      (stableSortBy (fun a b => sqlNotAfterLe a.not_after b.not_after) db).map
        (fun w => (w, none)) := rfl

theorem expiryFilterStep_eq {parse : String → Option Int} {now d : Int}
    {w : InvRow} {s : String} {exp : Int}
    (hna : w.not_after = some s) (hp : parse s = some exp) :
    expiryFilterStep parse now d w =
      if Int.fdiv (exp - now) 86400 ≤ d
      then some (w, some (Int.fdiv (exp - now) 86400)) else none := by
  simp only [expiryFilterStep, hna, hp]

theorem expiryFilterStep_none_of_bad {parse : String → Option Int} {now d : Int}
    {w : InvRow}
    (hbad : w.not_after = none ∨ ∃ s, w.not_after = some s ∧ parse s = none) :
    expiryFilterStep parse now d w = none := by
  rcases hbad with h | ⟨s, hna, hp⟩
  · simp [expiryFilterStep, h]
  · simp [expiryFilterStep, hna, hp]

theorem length_filter_not_add {α : Type} (p : α → Bool) :
    ∀ l : List α, (l.filter (fun x => !(p x))).length + (l.filter p).length = l.length := by
  intro l
  induction l with
  | nil => rfl
  | cons x xs ih =>
    cases hp : p x with
    | true => simp [List.filter_cons, hp]; omega
    | false => simp [List.filter_cons, hp]; omega

theorem scanStep_isSome (pemParse derParse : List Nat → Option Cert) (now : Int)
    (fs : Fs) (f : PyPath) :
    (scanStep pemParse derParse now fs f).isSome
    = (load_cert pemParse derParse (bytesAt fs f)).isSome := by
  unfold scanStep
  cases h : load_cert pemParse derParse (bytesAt fs f) <;> simp [h]

theorem scanStep_some {pemParse derParse : List Nat → Option Cert} {now : Int}
    {fs : Fs} {f : PyPath} {r : CertRecord}
    (h : scanStep pemParse derParse now fs f = some r) :
    ∃ cert, load_cert pemParse derParse (bytesAt fs f) = some cert ∧
      r = recordOf now f cert := by
  unfold scanStep at h
  split at h
  · exact absurd h (by simp)
  · next cert heq =>
    simp only [Option.some.injEq] at h
    exact ⟨cert, heq, h.symm⟩

theorem iterCandidateFiles_append (fs : Fs) (ps1 ps2 : List PyPath) :
    iterCandidateFiles fs (ps1 ++ ps2) =
      iterCandidateFiles fs ps1 ++ iterCandidateFiles fs ps2 := by
  unfold iterCandidateFiles
  rw [List.map_append, List.flatten_append]

/-! ## Concrete fixtures used by witnesses and counterexamples -/

def mkRowS (src fp : String) (na : Option String) : InvRow :=
  { fingerprint := fp, source := src, location := "/etc/ssl/" ++ fp,
    subject := some ("CN=" ++ fp), issuer := some "CN=ca", not_before := none,
    not_after := na, sans := [], first_seen := 0, last_seen := 0 }

def mkRow (fp : String) (na : Option String) : InvRow := mkRowS "filesystem" fp na

def mkRec (fp loc : String) : CertRecord :=
  { fingerprint := fp, source := "filesystem", path := some loc, location := none,
    subject := some ("CN=" ++ fp), issuer := some "CN=ca", not_before := some "nb",
    not_after := some "na", sans := ["a.example"], days_left := some 10 }

def parseNoneFn : String → Option Int := fun _ => none

def exRow (fp : String) (dl : Int) : InvRow × Option Int :=
  (mkRow fp (some ("T" ++ fp)), some dl)

def recW : CertRecord := mkRec "f1" "/etc/ssl/c.pem"

def callsW : List (Nat × List CertRecord) := [(1, [recW]), (2, [recW])]

def parseHalf : String → Option Int := fun s => if s == "EXPHALF" then some (-43200) else none

def rowHalf : InvRow := mkRow "half" (some "EXPHALF")

def rowsW25 : List (InvRow × Option Int) := List.replicate 25 (mkRow "w" none, some 1)

def dbW : List InvRow := [mkRowS "filesystem" "x" none, mkRowS "aws" "y" none]

def bigKnown : InvRow × Option Int := (mkRow "big" (some "B"), some 1000000)

def unkRow : InvRow × Option Int := (mkRow "unk" (some "U"), none)

def rowNoExp : InvRow := mkRow "noexp" none

def rowK : InvRow := mkRow "k" (some "2030-01-01T00:00:00+00:00")

def parseK : String → Option Int :=
  fun s => if s == "2030-01-01T00:00:00+00:00" then some 1893456000 else none

def cert0 : Cert :=
  { fingerprint := "f0", subject := "CN=x", issuer := "CN=ca",
    not_before_iso := "nb", not_after_iso := "na", not_after_sec := 86400, sans := [] }

def pem0 : List Nat → Option Cert := fun b => if b == [1] then some cert0 else none

def der0 : List Nat → Option Cert := fun _ => none

def fs0 : Fs :=
  { cwd := ["home", "u"], home := ["home", "u"],
    files := [{ comps := ["home", "u", "certs", "a.pem"], bytes := [1] }] }

def relRoot : PyPath := { isAbs := false, comps := ["certs"] }

/-! ## Claim theorems -/

/-- C1: starting from an empty inventory, any sequence of `upsert_many` calls
leaves at most one row per (fingerprint, source, location) triple; moreover a
record whose triple matches an existing row updates in place — the table
keeps its length and its list of identity triples, so no second row with the
same triple is ever created. -/
theorem C1_identity_uniqueness (calls : List (Nat × List CertRecord)) :
    uniqueTriples (runBatches calls) ∧
    ∀ (t : Nat) (db : List InvRow) (r : CertRecord),
      db.any (matchesKey r) = true →
      (upsertOne t db r).length = db.length ∧
      (upsertOne t db r).map rowKey = db.map rowKey := by
  constructor
  · exact uniqueTriples_runBatchesFrom calls [] (by simp [uniqueTriples])
  · intro t db r h
    rw [upsertOne_of_match t h]
    exact ⟨by simp, map_rowKey_map_applyRec t r db⟩

theorem C1_identity_uniqueness_witness :
    ([newRow 1 recW].any (matchesKey recW) = true) ∧
    (upsertOne 2 [newRow 1 recW] recW).length = 1 ∧
    uniqueTriples (runBatches callsW) := by
  refine ⟨by decide, ?_, (C1_identity_uniqueness callsW).1⟩
  exact ((C1_identity_uniqueness callsW).2 2 [newRow 1 recW] recW (by decide)).1

/-- C2: calling `upsert_many` twice with the same batch produces the same
table as calling it once, except that `last_seen` on the batch-matched rows
advances to the second call's time: the repetition preserves the row count,
the identity triples, and the mutable fields, and the returned processed
count is unchanged. -/
theorem C2_idempotent_upsert (t1 t2 : Nat) (db : List InvRow) (R : List CertRecord) :
    (upsert_many t2 (upsert_many t1 db R).1 R).1 =
      (upsert_many t1 db R).1.map
        (fun w => if R.any (fun r => matchesKey r w) then { w with last_seen := t2 }
                  else w) ∧
    (upsert_many t2 (upsert_many t1 db R).1 R).1.length =
      (upsert_many t1 db R).1.length ∧
    (upsert_many t2 (upsert_many t1 db R).1 R).1.map rowKey =
      (upsert_many t1 db R).1.map rowKey ∧
    (upsert_many t2 (upsert_many t1 db R).1 R).1.map mutableOf =
      (upsert_many t1 db R).1.map mutableOf ∧
    (upsert_many t2 (upsert_many t1 db R).1 R).2 = (upsert_many t1 db R).2 := by
  have hmain := upsertMany_twice t1 t2 db R
  refine ⟨hmain, ?_, ?_, ?_, rfl⟩
  · rw [hmain]; simp
  · rw [hmain, List.map_map]
    apply List.map_congr_left
    intro w _
    simp only [Function.comp]
    split <;> rfl
  · rw [hmain, List.map_map]
    apply List.map_congr_left
    intro w _
    simp only [Function.comp]
    split <;> rfl

/-- C3: with an expiry threshold `d`, a stored row with parseable `not_after`
is listed iff its floor-divided days-left is at most `d` (so a certificate
half a day past expiry has days_left `-1`, and any expired row passes every
non-negative threshold), and the listed row is annotated with exactly that
days_left value. -/
theorem C3_expiry_filter (parse : String → Option Int) (now : Int)
    (db : List InvRow) (d : Int) (w : InvRow) (s : String) (exp : Int)
    (hw : w ∈ db) (hna : w.not_after = some s) (hp : parse s = some exp) :
    ((w, some (Int.fdiv (exp - now) 86400)) ∈ invList parse now db none (some d)
      ↔ Int.fdiv (exp - now) 86400 ≤ d) ∧
    (exp < now → 0 ≤ d →
      (w, some (Int.fdiv (exp - now) 86400)) ∈ invList parse now db none (some d)) := by
  have hmem_iff :
      (w, some (Int.fdiv (exp - now) 86400)) ∈ invList parse now db none (some d)
        ↔ Int.fdiv (exp - now) 86400 ≤ d := by
    constructor
    · intro hmem
      rw [invList_none_some, List.mem_filterMap] at hmem
      rcases hmem with ⟨w2, _, hstep⟩
      have heq : w = w2 := expiryFilterStep_fst hstep
      rw [← heq, expiryFilterStep_eq hna hp] at hstep
      by_cases hd : Int.fdiv (exp - now) 86400 ≤ d
      · exact hd
      · rw [if_neg hd] at hstep
        exact absurd hstep (by simp)
    · intro hd
      rw [invList_none_some, List.mem_filterMap]
      refine ⟨w, (mem_stableSortBy _ _ _).mpr hw, ?_⟩
      rw [expiryFilterStep_eq hna hp, if_pos hd]
  refine ⟨hmem_iff, ?_⟩
  intro hexp hd
  apply hmem_iff.mpr
  have hneg : exp - now < 0 := by omega
  have hfd : Int.fdiv (exp - now) 86400 = (exp - now) / 86400 :=
    Int.fdiv_eq_ediv _ (by norm_num)
  have hlt : (exp - now) / 86400 < 0 := Int.ediv_neg' hneg (by norm_num)
  rw [hfd]
  exact le_trans (le_of_lt hlt) hd

theorem C3_expiry_filter_witness :
    rowHalf ∈ [rowHalf] ∧ rowHalf.not_after = some "EXPHALF" ∧
    parseHalf "EXPHALF" = some (-43200) ∧
    (((rowHalf, some (-1 : Int)) ∈ invList parseHalf 0 [rowHalf] none (some 0))
      ↔ (-1 : Int) ≤ 0) := by
  refine ⟨by decide, rfl, by decide, ?_⟩
  exact (C3_expiry_filter parseHalf 0 [rowHalf] 0 rowHalf "EXPHALF" (-43200)
    (by decide) rfl (by decide)).1

/-- C4: under monotone store call times, every row satisfies
`first_seen <= last_seen`; an upsert never changes the position, identity
triple, or `first_seen` of pre-existing rows; and every stored timestamp is
one of the store's own call times (never a value from the caller's records,
which carry no timestamps at all). -/
theorem C4_timestamps (calls : List (Nat × List CertRecord))
    (hchain : chainLe 0 (calls.map Prod.fst) = true) :
    (∀ w ∈ runBatches calls, w.first_seen ≤ w.last_seen) ∧
    (∀ (t : Nat) (db : List InvRow) (r : CertRecord),
      ((upsertOne t db r).take db.length).map InvRow.first_seen
          = db.map InvRow.first_seen ∧
      ((upsertOne t db r).take db.length).map rowKey = db.map rowKey ∧
      db.length ≤ (upsertOne t db r).length) ∧
    (∀ w ∈ runBatches calls,
      w.first_seen ∈ calls.map Prod.fst ∧ w.last_seen ∈ calls.map Prod.fst) := by
  refine ⟨?_, fun t db r => upsertOne_frame t db r, ?_⟩
  · obtain ⟨T2, hT2⟩ := timesOk_runBatchesFrom calls [] 0
      (fun w hw => absurd hw (List.not_mem_nil w)) hchain
    intro w hw
    exact (hT2 w hw).1
  · exact timesFrom_runBatchesFrom calls []
      (fun w hw => absurd hw (List.not_mem_nil w))
      (fun c hc => List.mem_map.mpr ⟨c, hc, rfl⟩)

theorem C4_timestamps_witness :
    chainLe 0 (callsW.map Prod.fst) = true ∧
    (runBatches callsW).all
      (fun w => decide (w.first_seen ≤ w.last_seen)) = true := by
  refine ⟨by decide, ?_⟩
  rw [List.all_eq_true]
  intro w hw
  exact decide_eq_true ((C4_timestamps callsW (by decide)).1 w hw)

/-- C5 (amended): discovery emits exactly one record per candidate file whose
bytes decode (count equation), every record is tagged `source = "filesystem"`
with `location` the candidate's path **as traversed** — which is relative
when the root path is relative, not an absolute normalized path (see the
counterexample) — and a failing file never aborts discovery of the remaining
files (scanning is compositional across root lists). -/
theorem C5_scan_contract (pemParse derParse : List Nat → Option Cert)
    (now : Int) (fs : Fs) (paths : List PyPath) :
    (scan_filesystem pemParse derParse now fs paths).length =
      ((iterCandidateFiles fs paths).filter
        (fun f => (load_cert pemParse derParse (bytesAt fs f)).isSome)).length ∧
    (∀ r ∈ scan_filesystem pemParse derParse now fs paths,
      r.source = "filesystem" ∧
      ∃ f ∈ iterCandidateFiles fs paths,
        (load_cert pemParse derParse (bytesAt fs f)).isSome ∧
        r.path = some (strPath f)) ∧
    (∀ ps1 ps2 : List PyPath,
      scan_filesystem pemParse derParse now fs (ps1 ++ ps2) =
        scan_filesystem pemParse derParse now fs ps1 ++
          scan_filesystem pemParse derParse now fs ps2) := by
  refine ⟨?_, ?_, ?_⟩
  · unfold scan_filesystem
    rw [length_filterMap_eq_length_filter]
    congr 1
    apply List.filter_congr
    intro f _
    exact scanStep_isSome pemParse derParse now fs f
  · intro r hr
    unfold scan_filesystem at hr
    rw [List.mem_filterMap] at hr
    rcases hr with ⟨f, hf, hstep⟩
    rcases scanStep_some hstep with ⟨cert, hl, hrec⟩
    subst hrec
    exact ⟨rfl, f, hf, by simp [hl], rfl⟩
  · intro ps1 ps2
    unfold scan_filesystem
    rw [iterCandidateFiles_append, List.filterMap_append]

theorem C5_scan_contract_witness :
    (scan_filesystem pem0 der0 0 fs0 [relRoot]).all
      (fun r => r.source == "filesystem") = true := by
  rw [List.all_eq_true]
  intro r hr
  exact beq_iff_eq.mpr ((C5_scan_contract pem0 der0 0 fs0 [relRoot]).2.1 r hr).1

/-- C5, claim as stated is false: scanning the relative root `certs` in a
filesystem whose working directory is `/home/u` emits a record whose location
is the relative path `certs/a.pem`, not the absolute normalized path
`/home/u/certs/a.pem` of the discovered file. -/
theorem C5_scan_location_counterexample :
    scan_filesystem pem0 der0 0 fs0 [relRoot] =
      [recordOf 0 { isAbs := false, comps := ["certs", "a.pem"] } cert0] ∧
    (recordOf 0 { isAbs := false, comps := ["certs", "a.pem"] } cert0).path =
      some "certs/a.pem" ∧
    strPath { isAbs := true, comps := ["home", "u", "certs", "a.pem"] } =
      "/home/u/certs/a.pem" ∧
    ("certs/a.pem" : String) ≠ "/home/u/certs/a.pem" := by decide

/-- C6 (amended): `compose` sorts ascending by the key
`(days_left, not_after)` where a missing days_left becomes the sentinel
999999 and a missing not_after becomes `""`, and its output is a permutation
of the days-left-ensured input.  Unknown-expiry rows therefore sort after
every row whose known days_left is below 999999, but not after one of
999999 or more (see the counterexample); the spec's concrete example
[40, 5, -2, 20] sorts to [-2, 5, 20, 40]. -/
theorem C6_sort_order_amended :
    (∀ (parse : String → Option Int) (now : Int)
        (rows : List (InvRow × Option Int)),
      (alertsSorted parse now rows).Perm (rows.map (ensureDaysLeft parse now)) ∧
      SortedLe rowLe (alertsSorted parse now rows)) ∧
    alertsSorted parseNoneFn 0
        [exRow "a" 40, exRow "b" 5, exRow "c" (-2), exRow "d" 20] =
      [exRow "c" (-2), exRow "b" 5, exRow "d" 20, exRow "a" 40] :=
  ⟨fun parse now rows =>
    ⟨alertsSorted_perm parse now rows, alertsSorted_sorted parse now rows⟩,
   by decide⟩

/-- C6, claim as stated is false: a row with the known days_left 1000000
sorts *after* a row with unknown days_left, because the unknown row is given
the sentinel key 999999 < 1000000 — refuting "rows whose days_left is unknown
sort after all rows with a known days_left". -/
theorem C6_sort_order_counterexample :
    alertsSorted parseNoneFn 0 [bigKnown, unkRow] = [unkRow, bigKnown] ∧
    (ensureDaysLeft parseNoneFn 0 unkRow).2 = none ∧
    bigKnown.2 = some 1000000 := by decide

/-- C7: composing a non-empty row set reports the total count, renders at
most the first 20 rows, and appends an "...and N more" notice with
N = n - 20 exactly when n > 20; an empty row set yields the "no rows"
success outcome with count zero. -/
theorem C7_compose_truncation (parse : String → Option Int) (now : Int)
    (rows : List (InvRow × Option Int)) :
    (rows = [] → alertsCompose parse now rows =
      { noRows := true, count := 0, lines := [], more := none }) ∧
    (rows ≠ [] →
      (alertsCompose parse now rows).noRows = false ∧
      (alertsCompose parse now rows).count = rows.length ∧
      (alertsCompose parse now rows).lines.length = min rows.length 20 ∧
      (20 < rows.length → (alertsCompose parse now rows).more =
        some ("...and " ++ toString (rows.length - 20) ++ " more")) ∧
      (rows.length ≤ 20 → (alertsCompose parse now rows).more = none)) := by
  have hlen := alertsSorted_length parse now rows
  constructor
  · intro h
    subst h
    have hnil : alertsSorted parse now ([] : List (InvRow × Option Int)) = [] :=
      List.length_eq_zero.mp (by simpa using alertsSorted_length parse now [])
    simp [alertsCompose, hnil]
  · intro h
    have hne : alertsSorted parse now rows ≠ [] := by
      intro hnil
      apply h
      exact List.length_eq_zero.mp (by rw [← hlen, hnil]; rfl)
    have hempty : (alertsSorted parse now rows).isEmpty = false := by
      cases hs : alertsSorted parse now rows with
      | nil => exact absurd hs hne
      | cons a l => rfl
    have hcomp : alertsCompose parse now rows =
        { noRows := false,
          count := (alertsSorted parse now rows).length,
          lines := ((alertsSorted parse now rows).take 20).map renderLine,
          more := if 20 < (alertsSorted parse now rows).length
                  then some ("...and " ++
                    toString ((alertsSorted parse now rows).length - 20) ++ " more")
                  else none } := by
      simp [alertsCompose, hempty]
    refine ⟨by rw [hcomp], by rw [hcomp]; exact hlen, ?_, ?_, ?_⟩
    · rw [hcomp]
      simp only [List.length_map, List.length_take]
      rw [hlen, Nat.min_comm]
    · intro h20
      rw [hcomp]
      simp only []
      rw [hlen, if_pos h20]
    · intro h20
      rw [hcomp]
      simp only []
      rw [hlen, if_neg (by omega)]

theorem C7_compose_truncation_witness :
    rowsW25 ≠ [] ∧
    (alertsCompose parseNoneFn 0 rowsW25).count = 25 ∧
    (alertsCompose parseNoneFn 0 rowsW25).lines.length = 20 ∧
    (alertsCompose parseNoneFn 0 rowsW25).more = some "...and 5 more" ∧
    alertsCompose parseNoneFn 0 [] =
      { noRows := true, count := 0, lines := [], more := none } := by
  have h := (C7_compose_truncation parseNoneFn 0 rowsW25).2 (by decide)
  refine ⟨by decide, h.2.1, h.2.2.1, ?_, (C7_compose_truncation parseNoneFn 0 []).1 rfl⟩
  rw [h.2.2.2.1 (by decide)]
  decide

/-- C8: purging a given non-empty source deletes exactly the rows of that
source (membership characterization plus sublist frame: survivors are the
other rows, kept verbatim and in order), returning the number deleted; a
purge with no source empties the table and returns the prior row count. -/
theorem C8_purge_scoping (db : List InvRow) (s : String) (hs : s ≠ "") :
    (∀ w, w ∈ (invPurge db (some s)).1 ↔ w ∈ db ∧ ¬ w.source = s) ∧
    (invPurge db (some s)).1.Sublist db ∧
    (invPurge db (some s)).2 = (db.filter (fun w => w.source == s)).length ∧
    (invPurge db (some s)).1.length + (invPurge db (some s)).2 = db.length ∧
    (invPurge db none).1 = [] ∧ (invPurge db none).2 = db.length := by
  have hunf : invPurge db (some s) =
      (db.filter (fun w => !(w.source == s)),
       (db.filter (fun w => w.source == s)).length) := by
    unfold invPurge
    simp [pyStrOpt, hs]
  rw [hunf]
  refine ⟨?_, List.filter_sublist db, rfl, ?_, rfl, rfl⟩
  · intro w
    simp [List.mem_filter]
  · exact length_filter_not_add (fun w => w.source == s) db

theorem C8_purge_scoping_witness :
    ("aws" : String) ≠ "" ∧
    (mkRowS "filesystem" "x" none ∈ (invPurge dbW (some "aws")).1 ↔
      (mkRowS "filesystem" "x" none ∈ dbW ∧
       ¬ (mkRowS "filesystem" "x" none).source = "aws")) ∧
    (invPurge dbW (some "aws")).2 = 1 := by
  have h := C8_purge_scoping dbW "aws" (by decide)
  exact ⟨by decide, h.1 (mkRowS "filesystem" "x" none), h.2.2.1⟩

/-- C9 (amended): a row with a missing or unparseable `not_after` never
raises anywhere (all operations are total functions of the embedding); under
an expiry filter such a row is *excluded* from the listing; the composer
gives it the sentinel key 999999 and sorts by that key; and the unfiltered
listing is ordered by SQL `ORDER BY not_after ASC`, under which a NULL expiry
sorts *first*, not last (see the counterexample). -/
theorem C9_unknown_expiry_amended (parse : String → Option Int) (now : Int)
    (db : List InvRow) (d : Int) (w : InvRow) (hw : w ∈ db)
    (hbad : w.not_after = none ∨ ∃ s, w.not_after = some s ∧ parse s = none) :
    (∀ a, (w, a) ∉ invList parse now db none (some d)) ∧
    (invList parse now db none none).Pairwise
      (fun p q => sqlNotAfterLe p.1.not_after q.1.not_after = true) ∧
    (∀ rows : List (InvRow × Option Int),
      SortedLe rowLe (alertsSorted parse now rows) ∧
      ∀ p ∈ alertsSorted parse now rows, p.2 = none → (sortKey p).1 = 999999) := by
  refine ⟨?_, invList_sorted_nofilter parse now db none, ?_⟩
  · intro a hmem
    rw [invList_none_some, List.mem_filterMap] at hmem
    rcases hmem with ⟨w2, _, hstep⟩
    have heq : w = w2 := expiryFilterStep_fst hstep
    rw [← heq, expiryFilterStep_none_of_bad hbad] at hstep
    exact absurd hstep (by simp)
  · intro rows
    refine ⟨alertsSorted_sorted parse now rows, ?_⟩
    intro p _ hnone
    simp [sortKey, hnone]

theorem C9_unknown_expiry_witness :
    rowNoExp ∈ [rowK, rowNoExp] ∧
    (rowNoExp.not_after = none ∨
      ∃ s, rowNoExp.not_after = some s ∧ parseK s = none) ∧
    ((rowNoExp, (none : Option Int)) ∉
      invList parseK 0 [rowK, rowNoExp] none (some 30)) := by
  refine ⟨by decide, Or.inl rfl, ?_⟩
  exact (C9_unknown_expiry_amended parseK 0 [rowK, rowNoExp] 30 rowNoExp
    (by decide) (Or.inl rfl)).1 none

/-- C9, claim as stated is false: in a `list` call without an expiry filter,
a row whose `not_after` is NULL sorts *before* a row with a known, parseable
expiry (SQLite orders NULL first under `ORDER BY ... ASC`), refuting "sorted
after all rows with a known expiry" for every core operation. -/
theorem C9_unknown_expiry_counterexample :
    invList parseK 0 [rowK, rowNoExp] none none =
      [(rowNoExp, none), (rowK, none)] ∧
    rowNoExp.not_after = none ∧
    parseK "2030-01-01T00:00:00+00:00" = some 1893456000 := by decide

/-- C10: an empty-string source argument is falsy in Python, so it disables
the source filter entirely: `purge(source="")` deletes every row and returns
the prior total count, and `list(source="")` lists rows of all sources. -/
theorem C10_empty_source_no_filter (db : List InvRow)
    (parse : String → Option Int) (now : Int) (e : Option Int) :
    invPurge db (some "") = ([], db.length) ∧
    invList parse now db (some "") e = invList parse now db none e :=
  ⟨rfl, rfl⟩
